import Mathlib

/-!
# invisible-items: version resolution, verified download and archive queries

A shallow embedding of `types.go`.  The Go functions are translated statement by
statement.  The collaborators that live outside the repository (the HTTP
transport, `crypto/sha1`, `encoding/json`, `archive/zip`) are fields of `Env`;
every call of the transport, of the JSON decoder and of the zip reader is
recorded in the `World`, so that statements such as "the payload is never
decoded" or "the container is parsed once" can be expressed.

Go strings are Lean strings, Go `int`s are integers (no arithmetic is done on
them), a nil pointer, slice or map is `none`, and a function with the results
`(value, error)` returns a pair whose second component is `none` for a nil error.
-/

namespace InvisibleItems

/-! ## Go values -/

/-- A Go `[]byte`. -/
abbrev Bytes := List UInt8

/-- A Go `error`, kept by its message; `none` is `nil`. -/
abbrev GoError := Option String

/-- A Go `map[string]α`, kept as the list of its entries (keys are distinct in
every map built by `GoMap.set`).  Reading a missing key gives `none`. -/
abbrev GoMap (α : Type) := List (String × α)

/-- The lookup `m[k]` with its presence flag. -/
def GoMap.get? {α : Type} (m : GoMap α) (k : String) : Option α :=
  match m with
  | [] => none
  | (k', v) :: rest => if k' = k then some v else GoMap.get? rest k

/-- The assignment `m[k] = v`: replaces the entry of `k` or adds one. -/
def GoMap.set {α : Type} (m : GoMap α) (k : String) (v : α) : GoMap α :=
  match m with
  | [] => [(k, v)]
  | (k', v') :: rest => if k' = k then (k, v) :: rest else (k', v') :: GoMap.set rest k v

/-- The keys of a map, in entry order. -/
def GoMap.keys {α : Type} (m : GoMap α) : List String := m.map Prod.fst

/-- The standard library's `time.Time`, carried through untouched. -/
structure Time where
  wall : Nat
  ext : Int
  deriving DecidableEq, Repr

/-- The zero `time.Time`. -/
def Time.zero : Time := ⟨0, 0⟩

/-- A value decoded into an `interface{}` (the untyped JSON tree); numbers are
kept by the bits of their `float64`. -/
inductive Any where
  | null
  | bool (b : Bool)
  | number (bits : Nat)
  | str (s : String)
  | array (xs : List Any)
  | object (kv : List (String × Any))

/-! ## The types of `types.go` -/

structure DataDownload where
  SHA1 : String
  URL : String
  Size : Int
  deriving DecidableEq, Repr

def DataDownload.zero : DataDownload := ⟨"", "", 0⟩

structure VersionManifest extends DataDownload where
  ID : String
  Type_ : String
  Time : Time
  deriving DecidableEq, Repr

def VersionManifest.zero : VersionManifest := ⟨DataDownload.zero, "", "", Time.zero⟩

structure RawVersionManifest where
  Latest : GoMap String
  Versions : List VersionManifest
  deriving DecidableEq, Repr

structure JARDownload where
  Client : DataDownload
  ClientMappings : DataDownload
  Server : DataDownload
  ServerMappings : DataDownload
  deriving DecidableEq, Repr

structure Version where
  AssetIndex : DataDownload
  Downloads : JARDownload
  ID : String
  Type_ : String
  Time : Time
  deriving DecidableEq, Repr

/-- The zero value `Version{}`. -/
def Version.zero : Version :=
  ⟨DataDownload.zero, ⟨DataDownload.zero, DataDownload.zero, DataDownload.zero, DataDownload.zero⟩,
    "", "", Time.zero⟩

structure Asset where
  Hash : String
  Size : Int
  deriving DecidableEq, Repr

/-- The `Objects` map is `none` when it is the nil map. -/
structure AssetIndex where
  Objects : Option (GoMap Asset)
  deriving DecidableEq, Repr

structure PackVersion where
  Resource : Int
  Data : Int
  deriving DecidableEq, Repr

structure ClientVersions where
  ID : String
  Name : String
  WorldVersion : Int
  Series : String
  ProtocolVersion : Int
  PackVersion : PackVersion
  BuildTime : Time
  JavaComponent : String
  JavaVersion : Int
  Stable : Bool
  UseEditor : Bool
  deriving DecidableEq, Repr

structure ModelOverridePredicate where
  CustomModelData : Nat
  deriving DecidableEq, Repr

structure ModelOverride where
  Predicate : ModelOverridePredicate
  Model : String
  deriving DecidableEq, Repr

structure Model where
  Parent : String
  Display : Any
  Textures : Any
  GUILight : Any
  Elements : List Any
  Overrides : List ModelOverride

/-- The zero value `ClientVersions{}`. -/
def ClientVersions.zero : ClientVersions :=
  ⟨"", "", 0, "", 0, ⟨0, 0⟩, Time.zero, "", 0, false, false⟩

/-- The zero value `Model{}`; a nil `interface{}` is `Any.null`. -/
def Model.zero : Model := ⟨"", Any.null, Any.null, Any.null, [], []⟩

/-! ## The archive reader's values -/

/-- An opened entry, kept by what `io.ReadAll` gives on it: the bytes read and
the error that stopped the read (`none` when the entry was read to its end). -/
structure ReadCloser where
  ReadAll : Bytes × GoError
  deriving DecidableEq, Repr

/-- A `*zip.File`: its name and the result of `f.Open()`, whose reader is
`none` (nil) when the open fails. -/
structure ZipFile where
  Name : String
  Open : Option ReadCloser × GoError
  deriving DecidableEq, Repr

/-- A `*zip.Reader`; `File` is `none` when the slice is nil. -/
structure ZipReader where
  File : Option (List ZipFile)
  deriving DecidableEq, Repr

structure Client where
  rawData : Bytes
  files : Option (List ZipFile)
  deriving DecidableEq, Repr

/-! ## Collaborators and effects -/

/-- An HTTP response: the status code and what `io.ReadAll(resp.Body)` gives. -/
structure Response where
  StatusCode : Int
  Body : Bytes × GoError
  deriving DecidableEq, Repr

/-- The collaborators outside the repository.  `Do n url` is the answer of the
transport to the request for `url` when `n` requests were made before it.  The
`Unmarshal*` fields give the value left in a zero-valued target and the error
of `json.Unmarshal`. -/
structure Env where
  NewRequest : String → GoError
  Do : Nat → String → Except String Response
  Sum : Bytes → Bytes
  UnmarshalManifest : Bytes → RawVersionManifest × GoError
  UnmarshalVersion : Bytes → Version × GoError
  UnmarshalAssetIndex : Bytes → AssetIndex × GoError
  UnmarshalClientVersions : Bytes → ClientVersions × GoError
  UnmarshalModel : Bytes → Model × GoError
  NewReader : Bytes → Option ZipReader × GoError

/-- One recorded call of a collaborator. -/
inductive Call where
  | httpDo (url : String)
  | jsonUnmarshal (data : Bytes)
  | zipNewReader (data : Bytes)
  | zipOpen (name : String)
  deriving DecidableEq, Repr

/-- What a run has done so far: the number of HTTP requests and the calls. -/
structure World where
  requests : Nat
  calls : List Call
  deriving DecidableEq, Repr

/-- The world before anything ran. -/
def World.init : World := ⟨0, []⟩

/-- A run-time panic of the Go program. -/
inductive Panic where
  | nilDereference
  deriving DecidableEq, Repr

/-- A Go computation: from a world to a returned value or a panic, and the world
it leaves. -/
def Go (α : Type) : Type := World → Except Panic α × World

def Go.pure {α : Type} (a : α) : Go α := fun w => (.ok a, w)

def Go.bind {α β : Type} (x : Go α) (f : α → Go β) : Go β := fun w =>
  match x w with
  | (.ok a, w') => f a w'
  | (.error p, w') => (.error p, w')

instance : Monad Go where
  pure := Go.pure
  bind := Go.bind

/-- The panic of a nil dereference. -/
def Go.panic {α : Type} (p : Panic) : Go α := fun w => (.error p, w)

/-- Recording of one call. -/
def record (c : Call) : Go Unit := fun w => (.ok (), ⟨w.requests, w.calls ++ [c]⟩)

/-- The call `http.DefaultClient.Do(req)`. -/
def httpDo (env : Env) (url : String) : Go (Except String Response) := fun w =>
  (.ok (env.Do w.requests url), ⟨w.requests + 1, w.calls ++ [Call.httpDo url]⟩)

/-- The call `json.Unmarshal(data, &target)` on a zero-valued target. -/
def jsonUnmarshal {α : Type} (dec : Bytes → α × GoError) (data : Bytes) : Go (α × GoError) := do
  record (Call.jsonUnmarshal data)
  return dec data

/-- The call `zip.NewReader(bytes.NewReader(data), int64(len(data)))`. -/
def zipNewReader (env : Env) (data : Bytes) : Go (Option ZipReader × GoError) := do
  record (Call.zipNewReader data)
  return env.NewReader data

/-- The call `f.Open()`. -/
def zipOpen (f : ZipFile) : Go (Option ReadCloser × GoError) := do
  record (Call.zipOpen f.Name)
  return f.Open

/-- The call `io.ReadAll(r)`; on a nil reader the method call panics. -/
def ioReadAll (r : Option ReadCloser) : Go (Bytes × GoError) :=
  match r with
  | none => Go.panic Panic.nilDereference
  | some rc => return rc.ReadAll

/-! ## `encoding/hex` -/

def hextable : List Char := "0123456789abcdef".data

/-- The function `hex.EncodeToString`: two lowercase digits for each byte. -/
def EncodeToString (src : Bytes) : String :=
  String.mk (src.flatMap fun v => [hextable.getD (v.toNat / 16) '0', hextable.getD (v.toNat % 16) '0'])

/-- The three lines `hasher := sha1.New(); hasher.Write(data);
hex.EncodeToString(hasher.Sum(nil))`. -/
def sha1Hex (env : Env) (data : Bytes) : String := EncodeToString (env.Sum data)

/-! ## `GetVersion` -/

/-- Lines 132-134: the requested id, with a channel name replaced by the id the
`latest` map gives it (the empty string when the key is missing). -/
def substituteID (manifest : RawVersionManifest) (id : String) : String :=
  if id = "release" ∨ id = "snapshot" then (manifest.Latest.get? id).getD "" else id

/-- Lines 136-144: the loop over `manifest.Versions`; returns `vManifest` and
`found`. -/
def findVersion (versions : List VersionManifest) (id : String) : VersionManifest × Bool :=
  match versions with
  | [] => (VersionManifest.zero, false)
  | ver :: rest => if ver.ID = id then (ver, true) else findVersion rest id

/-- Lines 132-147, the lookup step: the selected entry, or the not-found error. -/
def lookupVersion (manifest : RawVersionManifest) (id : String) : Except String VersionManifest :=
  let id := substituteID manifest id
  match findVersion manifest.Versions id with
  | (_, false) => .error ("get version: could not find specified version \"" ++ id ++ "\"")
  | (vManifest, true) => .ok vManifest

/-- The function `GetVersion(url, id)`. -/
def GetVersion (env : Env) (url id : String) : Go (Version × GoError) := do
  match env.NewRequest url with
  | some err => return (Version.zero, some ("get version: " ++ err))
  | none =>
  match ← httpDo env url with
  | .error err => return (Version.zero, some ("get version: " ++ err))
  | .ok resp =>
  if resp.StatusCode ≠ 200 then
    return (Version.zero,
      some ("get version: expected status 200 but got " ++ toString resp.StatusCode))
  else
  match resp.Body with
  | (_, some err) => return (Version.zero, some ("get version: " ++ err))
  | (manifestData, none) =>
  match ← jsonUnmarshal env.UnmarshalManifest manifestData with
  | (_, some err) => return (Version.zero, some ("get version: " ++ err))
  | (manifest, none) =>
  match lookupVersion manifest id with
  | .error err => return (Version.zero, some err)
  | .ok vManifest =>
  match env.NewRequest vManifest.URL with
  | some err => return (Version.zero, some ("get version: " ++ err))
  | none =>
  match ← httpDo env vManifest.URL with
  | .error err => return (Version.zero, some ("get version: " ++ err))
  | .ok resp =>
  if resp.StatusCode ≠ 200 then
    return (Version.zero,
      some ("get version: expected status 200 but got " ++ toString resp.StatusCode))
  else
  match resp.Body with
  | (_, some err) => return (Version.zero, some ("get version: " ++ err))
  | (versionData, none) =>
  let hash := sha1Hex env versionData
  if hash ≠ vManifest.SHA1 then
    return (Version.zero,
      some ("get version: SHA1 has validation failure: expexted \"" ++ vManifest.SHA1 ++
        "\" but got \"" ++ hash ++ "\""))
  else
  match ← jsonUnmarshal env.UnmarshalVersion versionData with
  | (_, some err) => return (Version.zero, some ("get version: " ++ err))
  | (version, none) => return (version, none)


/-! ## `GetAssets` and `GetClient` -/

/-- The method `(v Version) GetAssets()`; the returned map is `none` when nil. -/
def Version.GetAssets (env : Env) (v : Version) : Go (Option (GoMap Asset) × GoError) := do
  match env.NewRequest v.AssetIndex.URL with
  | some err => return (none, some ("get assets: " ++ err))
  | none =>
  match ← httpDo env v.AssetIndex.URL with
  | .error err => return (none, some ("get assets: " ++ err))
  | .ok resp =>
  if resp.StatusCode ≠ 200 then
    return (none, some ("get assets: expected status 200 but got " ++ toString resp.StatusCode))
  else
  match resp.Body with
  | (_, some err) => return (none, some ("get assets: " ++ err))
  | (assetData, none) =>
  let hash := sha1Hex env assetData
  if hash ≠ v.AssetIndex.SHA1 then
    return (none,
      some ("get assets: SHA1 has validation failure: expexted \"" ++ v.AssetIndex.SHA1 ++
        "\" but got \"" ++ hash ++ "\""))
  else
  match ← jsonUnmarshal env.UnmarshalAssetIndex assetData with
  | (_, some err) => return (none, some ("get assets: " ++ err))
  | (assetIndex, none) => return (assetIndex.Objects, none)

/-- The method `(v Version) GetClient()`; the returned pointer is `none` when
nil.  `len(clientData)` and `Size` are compared as Go `int`s. -/
def Version.GetClient (env : Env) (v : Version) : Go (Option Client × GoError) := do
  match env.NewRequest v.Downloads.Client.URL with
  | some err => return (none, some ("get client: " ++ err))
  | none =>
  match ← httpDo env v.Downloads.Client.URL with
  | .error err => return (none, some ("get client: " ++ err))
  | .ok resp =>
  if resp.StatusCode ≠ 200 then
    return (none, some ("get client: expected status 200 but got " ++ toString resp.StatusCode))
  else
  match resp.Body with
  | (_, some err) => return (none, some ("get client: " ++ err))
  | (clientData, none) =>
  let hash := sha1Hex env clientData
  if hash ≠ v.Downloads.Client.SHA1 then
    return (none,
      some ("get client: SHA1 has validation failure: expexted \"" ++ v.Downloads.Client.SHA1 ++
        "\" but got \"" ++ hash ++ "\""))
  else
  if (clientData.length : Int) ≠ v.Downloads.Client.Size then
    return (none,
      some ("get client: SHA1 matches but client has " ++ toString (clientData.length : Int) ++
        "b of data but expected " ++ toString v.Downloads.Client.Size ++ "b"))
  else
  return (some ⟨clientData, none⟩, none)

/-! ## The archive queries -/

/-- The function `strings.HasPrefix(s, p)`:
`len(s) >= len(p) && s[:len(p)] == p`. -/
def HasPrefix (s p : String) : Bool :=
  decide (p.data.length ≤ s.data.length ∧ s.data.take p.data.length = p.data)

/-- The function `strings.CutPrefix(s, p)`: `s` without the leading `p` and
`true`, or `s` and `false` when `s` does not start with `p`. -/
def CutPrefix (s p : String) : String × Bool :=
  if HasPrefix s p then (String.mk (s.data.drop p.data.length), true) else (s, false)

/-- The first four lines of `Versions` and of `GetFiles`: when `c.files` is nil
the raw data is parsed and the entries are stored in `c`.  The receiver `c` of
both methods is a value receiver `(c Client)`: this `c` is the method's own copy
and the returned client is that copy, not the caller's instance.  The error of
`zip.NewReader` is dropped and a nil reader is dereferenced. -/
def loadFiles (env : Env) (c : Client) : Go Client := do
  if c.files = none then
    let (zipReader, _) ← zipNewReader env c.rawData
    match zipReader with
    | none => Go.panic Panic.nilDereference
    | some zr => return { c with files := zr.File }
  else
    return c

/-- The loop of `Versions` over `c.files`. -/
def Versions.loop (env : Env) : List ZipFile → Go (Option ClientVersions)
  | [] => return none
  | f :: rest =>
    if f.Name = "version.json" then do
      let (fileReader, _) ← zipOpen f
      let (data, _) ← ioReadAll fileReader
      let (clientVersions, _) ← jsonUnmarshal env.UnmarshalClientVersions data
      return some clientVersions
    else
      Versions.loop env rest

/-- The method `(c Client) Versions()`; the returned pointer is `none` when
nil.  Ranging over a nil slice runs no iteration. -/
def Client.Versions (env : Env) (c : Client) : Go (Option ClientVersions) := do
  let c ← loadFiles env c
  Versions.loop env (c.files.getD [])

/-- The loop of `GetFiles` over `c.files`, from the map built so far. -/
def GetFiles.loop (pathPrefix : String) : List ZipFile → GoMap Bytes → Go (GoMap Bytes)
  | [], files => return files
  | f :: rest, files =>
    match CutPrefix f.Name pathPrefix with
    | (name, true) => do
      let (fileReader, _) ← zipOpen f
      let (buf, _) ← ioReadAll fileReader
      GetFiles.loop pathPrefix rest (files.set name buf)
    | (_, false) => GetFiles.loop pathPrefix rest files

/-- The method `(c Client) GetFiles(pathPrefix)`. -/
def Client.GetFiles (env : Env) (c : Client) (pathPrefix : String) : Go (GoMap Bytes) := do
  let c ← loadFiles env c
  GetFiles.loop pathPrefix (c.files.getD []) []

/-- The loop of `GetItemModels` over the entries of the map of files, from the
map built so far. -/
def GetItemModels.loop (env : Env) : List (String × Bytes) → GoMap Model → Go (GoMap Model)
  | [], iteModels => return iteModels
  | (name, file) :: rest, iteModels =>
    if HasPrefix name "template_" ∨ name = "air" then
      GetItemModels.loop env rest iteModels
    else do
      let (itemModel, _) ← jsonUnmarshal env.UnmarshalModel file
      GetItemModels.loop env rest (iteModels.set name itemModel)

/-- The method `(c Client) GetItemModels()`.  Go ranges over a map in an
unspecified order; the entries are taken here in the order of the list. -/
def Client.GetItemModels (env : Env) (c : Client) : Go (GoMap Model) := do
  let files ← c.GetFiles env "assets/minecraft/models/item/"
  GetItemModels.loop env files []

/-! ## Fixtures for the examples -/

/-- A stand-in digest for the examples: the sum of the bytes modulo 256, as a
single byte. -/
def testSum (data : Bytes) : Bytes := [UInt8.ofNat (data.foldl (fun a b => a + b.toNat) 0)]

/-- The release descriptor of the examples. -/
def testVersion : Version :=
  ⟨⟨"0c", "A", 2⟩, ⟨⟨"0f", "J", 4⟩, DataDownload.zero, DataDownload.zero, DataDownload.zero⟩,
    "1.2", "release", Time.zero⟩

/-- The version summary of the examples: id `1.2`, location `L`, hash `06`. -/
def testSummary : VersionManifest := ⟨⟨"06", "L", 3⟩, "1.2", "release", Time.zero⟩

/-- The catalog of the examples: `latest.release = "1.2"` and one summary. -/
def testManifest : RawVersionManifest := ⟨[("release", "1.2")], [testSummary]⟩

/-- The `version.json` document of the examples. -/
def testClientVersions : ClientVersions :=
  ⟨"1.2", "1.2", 3120, "main", 762, ⟨9, 10⟩, Time.zero, "java-runtime-gamma", 17, true, false⟩

/-- An item model with a parent and one override. -/
def testModel : Model :=
  ⟨"item/generated", Any.null, Any.object [("layer0", Any.str "item/bow")], Any.null, [],
    [⟨⟨1⟩, "item/bow_pulling"⟩]⟩

/-- A test double of the collaborators.  The catalog URL answers the bytes `[7]`,
decoded to `testManifest`; `L` answers `payload`; `A` and `J` answer `blob`.  The
descriptor bytes `[1, 2, 3]` decode to `testVersion`, the bytes `[9]` to
`testClientVersions`, and the bytes `[123, 125]` (the document `{}`) and `[4]` to
the zero model and to `testModel`. -/
def testEnv (payload blob : Bytes) : Env where
  NewRequest := fun _ => none
  Do := fun _ url =>
    if url = "catalog" then .ok ⟨200, ([7], none)⟩
    else if url = "L" then .ok ⟨200, (payload, none)⟩
    else if url = "A" ∨ url = "J" then .ok ⟨200, (blob, none)⟩
    else .error "no such host"
  Sum := testSum
  UnmarshalManifest := fun data =>
    if data = [7] then (testManifest, none) else (⟨[], []⟩, some "unexpected end of JSON input")
  UnmarshalVersion := fun data =>
    if data = [1, 2, 3] then (testVersion, none)
    else (Version.zero, some "unexpected end of JSON input")
  UnmarshalAssetIndex := fun data =>
    if data = [5, 7] then (⟨some [("icons/icon.png", ⟨"ab", 1⟩)]⟩, none)
    else (⟨none⟩, some "unexpected end of JSON input")
  UnmarshalClientVersions := fun data =>
    if data = [9] then (testClientVersions, none)
    else (ClientVersions.zero, some "unexpected end of JSON input")
  UnmarshalModel := fun data =>
    if data = [123, 125] then (Model.zero, none)
    else if data = [4] then (testModel, none)
    else (Model.zero, some "unexpected end of JSON input")
  NewReader := fun _ => (none, some "zip: not a valid zip file")

/-- A catalog with an entry whose id is the channel name `release`. -/
def channelNamedManifest : RawVersionManifest :=
  ⟨[("release", "1.2")], [⟨⟨"06", "L", 3⟩, "release", "release", Time.zero⟩]⟩

/-- A catalog whose `release` channel points at the channel name `snapshot`. -/
def chainedManifest : RawVersionManifest :=
  ⟨[("release", "snapshot"), ("snapshot", "1.3")],
    [⟨⟨"06", "L", 3⟩, "snapshot", "release", Time.zero⟩,
      ⟨⟨"07", "M", 3⟩, "1.3", "snapshot", Time.zero⟩]⟩

/-- An entry that opens and is read to its end. -/
def goodEntry (name : String) (data : Bytes) : ZipFile := ⟨name, (some ⟨(data, none)⟩, none)⟩

/-- An entry that opens and whose read stops with an error after `data`. -/
def truncatedEntry (name : String) (data : Bytes) : ZipFile :=
  ⟨name, (some ⟨(data, some "unexpected EOF")⟩, none)⟩

/-- An entry whose open fails. -/
def unopenableEntry (name : String) : ZipFile :=
  ⟨name, (none, some "zip: unsupported compression algorithm")⟩

/-- The collaborators of the examples, with a zip reader that parses every
raw data to the entries `fs`. -/
def archiveEnv (fs : List ZipFile) : Env :=
  { testEnv [] [] with NewReader := fun _ => (some ⟨some fs⟩, none) }

/-- Two calls of the same method on the same instance, one after the other. -/
def twice {α : Type} (x : Go α) : Go (α × α) := do
  let first ← x
  let second ← x
  return (first, second)


/-- The entries of the examples for the prefix `a/`. -/
def prefixEntries : List ZipFile :=
  [goodEntry "a/b/c.json" [1], goodEntry "x/y.json" [3], goodEntry "a/d.json" [2]]

/-- The entries of the examples for the item models. -/
def itemEntries : List ZipFile :=
  [goodEntry "assets/minecraft/models/item/template_foo" [123, 125],
    goodEntry "assets/minecraft/models/item/air" [4],
    goodEntry "assets/minecraft/models/item/stick" [123, 125],
    goodEntry "version.json" [9]]

/-- Entries of which one matches the prefix `a/` and fails while it is read,
after the byte `1`. -/
def truncatedEntries : List ZipFile :=
  [goodEntry "a/d.json" [2], truncatedEntry "a/b/c.json" [1]]

/-- Entries of which the second and the third have the exact path
`version.json`. -/
def versionEntries : List ZipFile :=
  [goodEntry "data/version.json" [4], goodEntry "version.json" [9],
    goodEntry "version.json" [123, 125]]

/-! ## Running a computation -/

@[simp] theorem Go.run_pure {α : Type} (a : α) (w : World) :
    (Pure.pure a : Go α) w = (.ok a, w) := rfl

@[simp] theorem Go.run_bind {α β : Type} (x : Go α) (f : α → Go β) (w : World) :
    (x >>= f) w = (match x w with
      | (.ok a, w') => f a w'
      | (.error p, w') => (.error p, w')) := rfl

@[simp] theorem run_httpDo (env : Env) (url : String) (w : World) :
    httpDo env url w =
      (.ok (env.Do w.requests url), ⟨w.requests + 1, w.calls ++ [Call.httpDo url]⟩) := rfl

@[simp] theorem run_jsonUnmarshal {α : Type} (dec : Bytes → α × GoError) (data : Bytes)
    (w : World) :
    jsonUnmarshal dec data w =
      (.ok (dec data), ⟨w.requests, w.calls ++ [Call.jsonUnmarshal data]⟩) := rfl

/-! ## The lookup in the catalog -/

theorem findVersion_of_filter_eq_singleton {versions : List VersionManifest} {id : String}
    {v : VersionManifest} (h : versions.filter (fun s => decide (s.ID = id)) = [v]) :
    findVersion versions id = (v, true) := by
  induction versions with
  | nil => simp at h
  | cons a rest ih =>
    by_cases ha : a.ID = id
    · simp [List.filter_cons, ha] at h
      obtain ⟨rfl, -⟩ := h
      simp [findVersion, ha]
    · simp [List.filter_cons, ha] at h
      simp [findVersion, ha, ih h]

theorem findVersion_of_absent {versions : List VersionManifest} {id : String}
    (h : ∀ v ∈ versions, v.ID ≠ id) : findVersion versions id = (VersionManifest.zero, false) := by
  induction versions with
  | nil => rfl
  | cons a rest ih =>
    have ha : a.ID ≠ id := h a (List.mem_cons_self a rest)
    simp [findVersion, ha, ih fun v hv => h v (List.mem_cons_of_mem a hv)]

/-! ## The client download -/

theorem size_message_ne_hash_message (expected got : String) (n m : Int) :
    "get client: SHA1 matches but client has " ++ toString n ++ "b of data but expected " ++
        toString m ++ "b" ≠
      "get client: SHA1 has validation failure: expexted \"" ++ expected ++ "\" but got \"" ++
        got ++ "\"" := by
  intro h
  have h2 := congrArg (fun s : String => s.data.take 18) h
  simp only [String.data_append, List.append_assoc] at h2
  rw [List.take_append_of_le_length (by decide), List.take_append_of_le_length (by decide)] at h2
  exact absurd h2 (by decide)

theorem getClient_only_when (env : Env) (v : Version) (w w' : World) (c : Client) (err : GoError)
    (h : v.GetClient env w = (.ok (some c, err), w')) :
    ∃ resp : Response, env.Do w.requests v.Downloads.Client.URL = .ok resp ∧
      resp.StatusCode = 200 ∧ resp.Body = (c.rawData, none) ∧
      sha1Hex env c.rawData = v.Downloads.Client.SHA1 ∧
      (c.rawData.length : Int) = v.Downloads.Client.Size ∧ c.files = none ∧ err = none := by
  cases hreq : env.NewRequest v.Downloads.Client.URL with
  | some e => simp [Version.GetClient, hreq] at h
  | none =>
    cases hdo : env.Do w.requests v.Downloads.Client.URL with
    | error e => simp [Version.GetClient, hreq, hdo] at h
    | ok resp =>
      by_cases hst : resp.StatusCode = 200
      · rcases hbody : resp.Body with ⟨clientData, _ | e⟩
        · by_cases hhash : sha1Hex env clientData = v.Downloads.Client.SHA1
          · by_cases hlen : (clientData.length : Int) = v.Downloads.Client.Size
            · simp [Version.GetClient, hreq, hdo, hst, hbody, hhash, hlen] at h
              obtain ⟨⟨rfl, rfl⟩, -⟩ := h
              exact ⟨resp, rfl, hst, hbody, hhash, hlen, rfl, rfl⟩
            · simp [Version.GetClient, hreq, hdo, hst, hbody, hhash, hlen] at h
          · simp [Version.GetClient, hreq, hdo, hst, hbody, hhash] at h
        · simp [Version.GetClient, hreq, hdo, hst, hbody] at h
      · simp [Version.GetClient, hreq, hdo, hst] at h

/-! ## Maps and prefixes -/

theorem GoMap.get?_set {α : Type} (m : GoMap α) (k k' : String) (v : α) :
    (GoMap.set m k v).get? k' = if k = k' then some v else m.get? k' := by
  induction m with
  | nil => simp [GoMap.set, GoMap.get?]
  | cons e rest ih =>
    obtain ⟨a, b⟩ := e
    by_cases hak : a = k
    · subst hak
      by_cases hk : a = k' <;> simp [GoMap.set, GoMap.get?, hk]
    · by_cases hk : k = k'
      · subst hk
        simp [GoMap.set, GoMap.get?, hak, ih]
      · by_cases hak' : a = k'
        · subst hak'
          simp [GoMap.set, GoMap.get?, hak, hk]
        · simp [GoMap.set, GoMap.get?, hak, hak', hk, ih]

theorem GoMap.mem_keys_iff {α : Type} (m : GoMap α) (k : String) :
    k ∈ m.keys ↔ ∃ v, m.get? k = some v := by
  induction m with
  | nil => simp [GoMap.keys, GoMap.get?]
  | cons e rest ih =>
    obtain ⟨a, b⟩ := e
    by_cases hak : a = k
    · simp [GoMap.keys, GoMap.get?, hak]
    · have hka : ¬ k = a := fun h => hak h.symm
      simp only [GoMap.keys] at ih
      simp [GoMap.keys, GoMap.get?, hak, hka, ih]

theorem HasPrefix_iff (s p : String) : HasPrefix s p = true ↔ ∃ t : String, s = p ++ t := by
  simp only [HasPrefix, decide_eq_true_eq]
  constructor
  · rintro ⟨-, h⟩
    refine ⟨String.mk (s.data.drop p.data.length), ?_⟩
    apply String.ext
    rw [String.data_append]
    conv_lhs => rw [← List.take_append_drop p.data.length s.data]
    rw [h]
  · rintro ⟨t, rfl⟩
    simp [String.data_append]

theorem CutPrefix_append (p t : String) : CutPrefix (p ++ t) p = (t, true) := by
  have h : HasPrefix (p ++ t) p = true := (HasPrefix_iff _ _).2 ⟨t, rfl⟩
  simp [CutPrefix, h, String.data_append]

theorem CutPrefix_eq_true_iff (s p t : String) : CutPrefix s p = (t, true) ↔ s = p ++ t := by
  constructor
  · intro h
    by_cases hp : HasPrefix s p = true
    · obtain ⟨u, rfl⟩ := (HasPrefix_iff _ _).1 hp
      rw [CutPrefix_append] at h
      simp at h
      rw [h]
    · simp [CutPrefix, hp] at h
  · rintro rfl
    exact CutPrefix_append p t

theorem CutPrefix_false (s p t : String) (h : CutPrefix s p = (t, false)) :
    ∀ u : String, s ≠ p ++ u := by
  rintro u rfl
  rw [CutPrefix_append] at h
  simp at h

/-! ## The lazy index -/

theorem loadFiles_indexed (env : Env) (c : Client) (fs : List ZipFile) (w : World)
    (h : c.files = some fs) : loadFiles env c w = (.ok c, w) := by
  simp [loadFiles, h]

@[simp] theorem run_zipNewReader (env : Env) (data : Bytes) (w : World) :
    zipNewReader env data w =
      (.ok (env.NewReader data), ⟨w.requests, w.calls ++ [Call.zipNewReader data]⟩) := rfl

@[simp] theorem run_zipOpen (f : ZipFile) (w : World) :
    zipOpen f w = (.ok f.Open, ⟨w.requests, w.calls ++ [Call.zipOpen f.Name]⟩) := rfl

@[simp] theorem run_panic {α : Type} (p : Panic) (w : World) :
    (Go.panic p : Go α) w = (.error p, w) := rfl

theorem loadFiles_unbuilt (env : Env) (c : Client) (w : World) (h : c.files = none) :
    loadFiles env c w =
      match (env.NewReader c.rawData).1 with
      | none => (.error Panic.nilDereference, ⟨w.requests, w.calls ++ [Call.zipNewReader c.rawData]⟩)
      | some zr => (.ok ⟨c.rawData, zr.File⟩, ⟨w.requests, w.calls ++ [Call.zipNewReader c.rawData]⟩) := by
  rcases hnr : env.NewReader c.rawData with ⟨_ | zr, e⟩ <;> simp [loadFiles, h, hnr]


@[simp] theorem run_ioReadAll_some (rc : ReadCloser) (w : World) :
    ioReadAll (some rc) w = (.ok rc.ReadAll, w) := rfl

@[simp] theorem run_ioReadAll_none (w : World) :
    ioReadAll none w = (.error Panic.nilDereference, w) := rfl

theorem String.append_left_cancel (p a b : String) (h : p ++ a = p ++ b) : a = b := by
  apply String.ext
  have h' := congrArg String.data h
  simpa [String.data_append] using h'

/-! ## `GetFiles` -/

theorem GetFiles_loop_returns (p : String) (fs : List ZipFile) (files : GoMap Bytes) (w : World)
    (hopen : ∀ f ∈ fs, ∀ s : String, f.Name = p ++ s → ∃ rc, f.Open.1 = some rc) :
    ∃ (m : GoMap Bytes) (w' : World), GetFiles.loop p fs files w = (.ok m, w') ∧
      ∀ s : String, m.get? s =
        match (fs.filter (fun f => decide (f.Name = p ++ s))).getLast? with
        | some f => f.Open.1.map (fun rc => rc.ReadAll.1)
        | none => files.get? s := by
  induction fs generalizing files w with
  | nil => exact ⟨files, w, rfl, fun s => by simp⟩
  | cons f rest ih =>
    have hrest : ∀ g ∈ rest, ∀ s : String, g.Name = p ++ s → ∃ rc, g.Open.1 = some rc :=
      fun g hg => hopen g (List.mem_cons_of_mem f hg)
    rcases hcut : CutPrefix f.Name p with ⟨name, _ | _⟩
    · have hne := CutPrefix_false _ _ _ hcut
      obtain ⟨m, w', hrun, hm⟩ := ih files w hrest
      refine ⟨m, w', ?_, fun s => ?_⟩
      · simp [GetFiles.loop, hcut, hrun]
      · simp [List.filter_cons, hne s, hm s]
    · have hname : f.Name = p ++ name := (CutPrefix_eq_true_iff _ _ _).1 hcut
      obtain ⟨rc, hrc⟩ := hopen f (List.mem_cons_self f rest) name hname
      rcases hop : f.Open with ⟨r, e⟩
      rw [hop] at hrc
      simp only at hrc
      subst hrc
      obtain ⟨m, w', hrun, hm⟩ := ih (GoMap.set files name rc.ReadAll.1)
        ⟨w.requests, w.calls ++ [Call.zipOpen f.Name]⟩ hrest
      refine ⟨m, w', ?_, fun s => ?_⟩
      · simp [GetFiles.loop, hcut, hop, hrun]
      · rw [hm s]
        by_cases hs : name = s
        · subst hs
          simp only [List.filter_cons, hname, decide_True, if_true]
          rcases hl : (rest.filter fun g => decide (g.Name = p ++ name)).getLast? with _ | g
          · have hnil := List.getLast?_eq_none_iff.1 hl
            simp [hnil, GoMap.get?_set, hop]
          · simp [List.getLast?_cons, hl]
        · have hne : ¬ p ++ name = p ++ s := fun h => hs (String.append_left_cancel p _ _ h)
          simp [List.filter_cons, hname, hne, GoMap.get?_set, hs]


theorem GoMap.keys_set_nodup {α : Type} (m : GoMap α) (k : String) (v : α)
    (h : m.keys.Nodup) : (GoMap.set m k v).keys.Nodup ∧
      ∀ x, x ∈ (GoMap.set m k v).keys ↔ x = k ∨ x ∈ m.keys := by
  induction m with
  | nil => simp [GoMap.set, GoMap.keys]
  | cons e rest ih =>
    obtain ⟨a, b⟩ := e
    simp only [GoMap.keys, List.map_cons, List.nodup_cons] at h
    obtain ⟨ih₁, ih₂⟩ := ih h.2
    simp only [GoMap.keys] at ih₁ ih₂
    by_cases hak : a = k
    · subst hak
      simp [GoMap.set, GoMap.keys, h.1, h.2]
    · have hmem : a ∉ List.map Prod.fst (GoMap.set rest k v) := by
        rw [ih₂]
        simp [hak, h.1]
      refine ⟨?_, fun x => ?_⟩
      · simp [GoMap.set, GoMap.keys, hak, hmem, ih₁]
      · simp only [GoMap.set, hak, if_false, GoMap.keys, List.map_cons, List.mem_cons, ih₂]
        tauto

theorem GetFiles_loop_nodup (p : String) (fs : List ZipFile) (files m : GoMap Bytes)
    (w w' : World) (hrun : GetFiles.loop p fs files w = (.ok m, w'))
    (h : files.keys.Nodup) : m.keys.Nodup := by
  induction fs generalizing files w with
  | nil =>
    simp [GetFiles.loop] at hrun
    rw [← hrun.1]
    exact h
  | cons f rest ih =>
    rcases hcut : CutPrefix f.Name p with ⟨name, _ | _⟩
    · simp [GetFiles.loop, hcut] at hrun
      exact ih files w hrun h
    · rcases hop : f.Open with ⟨_ | rc, e⟩
      · simp [GetFiles.loop, hcut, hop] at hrun
      · simp [GetFiles.loop, hcut, hop] at hrun
        exact ih _ _ hrun (GoMap.keys_set_nodup files name rc.ReadAll.1 h).1

/-! ## `Versions` -/

theorem Versions_loop_run (env : Env) (fs : List ZipFile) (w : World) :
    Versions.loop env fs w =
      match fs.find? (fun f => decide (f.Name = "version.json")) with
      | none => (.ok none, w)
      | some f =>
        match f.Open.1 with
        | none =>
          (.error Panic.nilDereference, ⟨w.requests, w.calls ++ [Call.zipOpen "version.json"]⟩)
        | some rc =>
          (.ok (some (env.UnmarshalClientVersions rc.ReadAll.1).1),
            ⟨w.requests,
              w.calls ++ [Call.zipOpen "version.json", Call.jsonUnmarshal rc.ReadAll.1]⟩) := by
  induction fs with
  | nil => rfl
  | cons f rest ih =>
    by_cases hname : f.Name = "version.json"
    · rcases hop : f.Open with ⟨_ | rc, e⟩ <;>
        simp [Versions.loop, hname, hop, List.find?_cons]
    · simp [Versions.loop, hname, List.find?_cons, ih]

/-! ## `GetItemModels` -/

theorem GetItemModels_loop_run (env : Env) (es : List (String × Bytes)) (models : GoMap Model)
    (w : World) (hnd : (GoMap.keys es).Nodup) :
    ∃ (m : GoMap Model) (w' : World), GetItemModels.loop env es models w = (.ok m, w') ∧
      ∀ k : String, m.get? k =
        if HasPrefix k "template_" = true ∨ k = "air" then models.get? k
        else match GoMap.get? es k with
          | some b => some (env.UnmarshalModel b).1
          | none => models.get? k := by
  induction es generalizing models w with
  | nil => exact ⟨models, w, rfl, fun k => by simp [GoMap.get?]⟩
  | cons e rest ih =>
    obtain ⟨name, file⟩ := e
    simp only [GoMap.keys, List.map_cons, List.nodup_cons] at hnd
    have hfresh : GoMap.get? rest name = none := by
      rcases hg : GoMap.get? rest name with _ | b
      · rfl
      · exact absurd ((GoMap.mem_keys_iff rest name).2 ⟨b, hg⟩) hnd.1
    by_cases hskip : HasPrefix name "template_" = true ∨ name = "air"
    · obtain ⟨m, w', hrun, hm⟩ := ih models w hnd.2
      refine ⟨m, w', ?_, fun k => ?_⟩
      · simp only [GetItemModels.loop, hskip, if_true, hrun]
      · rw [hm k]
        by_cases hk : name = k
        · subst hk
          simp [hskip]
        · simp [GoMap.get?, hk]
    · obtain ⟨m, w', hrun, hm⟩ := ih (GoMap.set models name (env.UnmarshalModel file).1)
        ⟨w.requests, w.calls ++ [Call.jsonUnmarshal file]⟩ hnd.2
      refine ⟨m, w', ?_, fun k => ?_⟩
      · simp [GetItemModels.loop, hskip, hrun]
      · rw [hm k]
        by_cases hk : name = k
        · subst hk
          simp [hskip, hfresh, GoMap.get?, GoMap.get?_set]
        · simp [GoMap.get?, GoMap.get?_set, hk]

theorem GetFiles_returns (env : Env) (c c' : Client) (p : String) (w w₁ : World)
    (hload : loadFiles env c w = (.ok c', w₁))
    (hopen : ∀ f ∈ c'.files.getD [], ∀ s : String, f.Name = p ++ s → ∃ rc, f.Open.1 = some rc) :
    ∃ (m : GoMap Bytes) (w' : World), c.GetFiles env p w = (.ok m, w') ∧
      (∀ s : String, s ∈ m.keys ↔ ∃ f ∈ c'.files.getD [], f.Name = p ++ s) ∧
      ∀ (s : String) (f : ZipFile),
        ((c'.files.getD []).filter (fun g => decide (g.Name = p ++ s))).getLast? = some f →
        m.get? s = f.Open.1.map (fun rc => rc.ReadAll.1) := by
  obtain ⟨m, w', hrun, hm⟩ := GetFiles_loop_returns p (c'.files.getD []) [] w₁ hopen
  have hlast : ∀ (s : String) (f : ZipFile),
      ((c'.files.getD []).filter (fun g => decide (g.Name = p ++ s))).getLast? = some f →
      m.get? s = f.Open.1.map (fun rc => rc.ReadAll.1) := by
    intro s f hf
    rw [hm s, hf]
  refine ⟨m, w', ?_, fun s => ?_, hlast⟩
  · simp [Client.GetFiles, hload, hrun]
  · rw [GoMap.mem_keys_iff]
    constructor
    · rintro ⟨v, hv⟩
      rcases hl : ((c'.files.getD []).filter (fun g => decide (g.Name = p ++ s))).getLast?
        with _ | f
      · rw [hm s, hl] at hv
        simp [GoMap.get?] at hv
      · have hmem := List.mem_of_getLast?_eq_some hl
        simp only [List.mem_filter, decide_eq_true_eq] at hmem
        exact ⟨f, hmem.1, hmem.2⟩
    · rintro ⟨f, hf, hname⟩
      have hne : (c'.files.getD []).filter (fun g => decide (g.Name = p ++ s)) ≠ [] := by
        intro hnil
        have : f ∈ (c'.files.getD []).filter (fun g => decide (g.Name = p ++ s)) := by
          simp [List.mem_filter, hf, hname]
        rw [hnil] at this
        simp at this
      rcases hl : ((c'.files.getD []).filter (fun g => decide (g.Name = p ++ s))).getLast?
        with _ | g
      · exact absurd (List.getLast?_eq_none_iff.1 hl) hne
      · have hmem := List.mem_of_getLast?_eq_some hl
        simp only [List.mem_filter, decide_eq_true_eq] at hmem
        obtain ⟨rc, hrc⟩ := hopen g hmem.1 s hmem.2
        exact ⟨rc.ReadAll.1, by rw [hlast s g hl, hrc]; rfl⟩

theorem GoMap.get?_eq_some_iff {α : Type} (m : GoMap α) (k : String) (v : α)
    (hnd : m.keys.Nodup) : m.get? k = some v ↔ (k, v) ∈ m := by
  induction m with
  | nil => simp [GoMap.get?]
  | cons e rest ih =>
    obtain ⟨a, b⟩ := e
    simp only [GoMap.keys, List.map_cons, List.nodup_cons] at hnd
    by_cases hak : a = k
    · subst hak
      have hnot : (a, v) ∉ rest := fun hmem => hnd.1 (List.mem_map.2 ⟨(a, v), hmem, rfl⟩)
      simp only [GoMap.get?, if_true, Option.some.injEq, List.mem_cons, Prod.mk.injEq,
        true_and, hnot, or_false]
      exact eq_comm
    · have hka : ¬ k = a := fun h => hak h.symm
      simp [GoMap.get?, hak, hka, ih hnd.2]

theorem GoMap.get?_perm {α : Type} (m m' : GoMap α) (k : String) (hperm : List.Perm m' m)
    (hnd : m.keys.Nodup) : GoMap.get? m' k = GoMap.get? m k := by
  have hnd' : (GoMap.keys m').Nodup := (List.Perm.nodup_iff (hperm.map Prod.fst)).2 hnd
  apply Option.ext
  intro v
  simp only [Option.mem_def]
  rw [GoMap.get?_eq_some_iff m' k v hnd', GoMap.get?_eq_some_iff m k v hnd]
  exact hperm.mem_iff

/-- The order in which `GetItemModels` ranges over the map of files does not
change what its result holds: the loop run over any reordering of the entries
gives a map with the same lookups. -/
theorem GetItemModels_loop_order (env : Env) (es es' : List (String × Bytes)) (w : World)
    (hperm : List.Perm es' es) (hnd : (GoMap.keys es).Nodup) :
    ∃ (m m' : GoMap Model) (w₁ w₂ : World),
      GetItemModels.loop env es [] w = (.ok m, w₁) ∧
      GetItemModels.loop env es' [] w = (.ok m', w₂) ∧
      ∀ k : String, m'.get? k = m.get? k := by
  have hnd' : (GoMap.keys es').Nodup := (List.Perm.nodup_iff (hperm.map Prod.fst)).2 hnd
  obtain ⟨m, w₁, hrun, hm⟩ := GetItemModels_loop_run env es [] w hnd
  obtain ⟨m', w₂, hrun', hm'⟩ := GetItemModels_loop_run env es' [] w hnd'
  refine ⟨m, m', w₁, w₂, hrun, hrun', fun k => ?_⟩
  rw [hm k, hm' k, GoMap.get?_perm es es' k hperm hnd]

theorem GetFiles_loop_calls (p : String) (fs : List ZipFile) (files : GoMap Bytes) (w : World) :
    ∃ rest : List Call, (GetFiles.loop p fs files w).2.calls = w.calls ++ rest ∧
      ∀ data : Bytes, Call.zipNewReader data ∉ rest := by
  induction fs generalizing files w with
  | nil => exact ⟨[], by simp [GetFiles.loop], by simp⟩
  | cons f rest ih =>
    rcases hcut : CutPrefix f.Name p with ⟨name, _ | _⟩
    · obtain ⟨r, hr, hnot⟩ := ih files w
      exact ⟨r, by simp [GetFiles.loop, hcut, hr], hnot⟩
    · rcases hop : f.Open with ⟨_ | rc, e⟩
      · exact ⟨[Call.zipOpen f.Name], by simp [GetFiles.loop, hcut, hop], by simp⟩
      · obtain ⟨r, hr, hnot⟩ := ih (GoMap.set files name rc.ReadAll.1)
          ⟨w.requests, w.calls ++ [Call.zipOpen f.Name]⟩
        refine ⟨Call.zipOpen f.Name :: r, by simp [GetFiles.loop, hcut, hop, hr], ?_⟩
        intro data hmem
        simp only [List.mem_cons] at hmem
        rcases hmem with h | h
        · cases h
        · exact hnot data h

/-- A call of `Versions` or of `GetFiles` on a client whose index is unbuilt
starts by parsing the raw data, in whatever world it runs and so also after an
earlier call on the same client; the loops that follow never parse. -/
theorem unbuilt_index_is_parsed_on_every_call (env : Env) (raw : Bytes) (p : String)
    (w : World) :
    (∃ rest : List Call,
        (Client.Versions env ⟨raw, none⟩ w).2.calls = w.calls ++ Call.zipNewReader raw :: rest ∧
        ∀ data : Bytes, Call.zipNewReader data ∉ rest) ∧
      ∃ rest : List Call,
        (Client.GetFiles env ⟨raw, none⟩ p w).2.calls =
          w.calls ++ Call.zipNewReader raw :: rest ∧
        ∀ data : Bytes, Call.zipNewReader data ∉ rest := by
  constructor
  · rcases hnr : (env.NewReader raw).1 with _ | zr
    · exact ⟨[], by simp [Client.Versions, loadFiles_unbuilt, hnr], by simp⟩
    · rcases hfind : (zr.File.getD []).find? (fun f => decide (f.Name = "version.json"))
        with _ | f
      · exact ⟨[], by simp [Client.Versions, loadFiles_unbuilt, hnr, Versions_loop_run, hfind],
          by simp⟩
      · rcases hop : f.Open.1 with _ | rc
        · exact ⟨[Call.zipOpen "version.json"],
            by simp [Client.Versions, loadFiles_unbuilt, hnr, Versions_loop_run, hfind, hop],
            by simp⟩
        · exact ⟨[Call.zipOpen "version.json", Call.jsonUnmarshal rc.ReadAll.1],
            by simp [Client.Versions, loadFiles_unbuilt, hnr, Versions_loop_run, hfind, hop],
            by simp⟩
  · rcases hnr : (env.NewReader raw).1 with _ | zr
    · exact ⟨[], by simp [Client.GetFiles, loadFiles_unbuilt, hnr], by simp⟩
    · obtain ⟨r, hr, hnot⟩ := GetFiles_loop_calls p (zr.File.getD []) []
        ⟨w.requests, w.calls ++ [Call.zipNewReader raw]⟩
      exact ⟨r, by simp [Client.GetFiles, loadFiles_unbuilt, hnr, hr], hnot⟩

/-- An entry that matches the prefix and does not open stops `GetFiles` with a
panic: `io.ReadAll` is called on the nil reader. -/
theorem getFiles_panics_on_unopenable_entry :
    Client.GetFiles (archiveEnv [goodEntry "a/d.json" [2], unopenableEntry "a/b/c.json"])
        ⟨[80, 75], none⟩ "a/" World.init =
      (.error Panic.nilDereference,
        ⟨0, [Call.zipNewReader [80, 75], Call.zipOpen "a/d.json",
          Call.zipOpen "a/b/c.json"]⟩) := rfl

/-! ## Integrity of the downloaded documents -/

/-- C1: when the lowercase-hex SHA-1 of the bytes downloaded from the summary's
location differs from the summary's expected hash, `GetVersion` returns the
zero-valued `Version` and the validation error, and the only JSON decoding it
has run is that of the catalog: the payload is neither decoded nor returned.
`GetAssets` does the same against `v.AssetIndex.SHA1`: a nil map, the
validation error, and no decoding at all. -/
theorem hash_mismatch_is_fatal (env : Env) :
    (∀ (url id : String) (w : World) (resp₁ resp₂ : Response)
        (manifestData versionData : Bytes) (manifest : RawVersionManifest)
        (vManifest : VersionManifest),
        env.NewRequest url = none →
        env.Do w.requests url = .ok resp₁ →
        resp₁.StatusCode = 200 →
        resp₁.Body = (manifestData, none) →
        env.UnmarshalManifest manifestData = (manifest, none) →
        lookupVersion manifest id = .ok vManifest →
        env.NewRequest vManifest.URL = none →
        env.Do (w.requests + 1) vManifest.URL = .ok resp₂ →
        resp₂.StatusCode = 200 →
        resp₂.Body = (versionData, none) →
        sha1Hex env versionData ≠ vManifest.SHA1 →
        GetVersion env url id w =
          (.ok (Version.zero,
              some ("get version: SHA1 has validation failure: expexted \"" ++ vManifest.SHA1 ++
                "\" but got \"" ++ sha1Hex env versionData ++ "\"")),
            ⟨w.requests + 2,
              w.calls ++ [Call.httpDo url, Call.jsonUnmarshal manifestData,
                Call.httpDo vManifest.URL]⟩)) ∧
    (∀ (v : Version) (w : World) (resp : Response) (assetData : Bytes),
        env.NewRequest v.AssetIndex.URL = none →
        env.Do w.requests v.AssetIndex.URL = .ok resp →
        resp.StatusCode = 200 →
        resp.Body = (assetData, none) →
        sha1Hex env assetData ≠ v.AssetIndex.SHA1 →
        v.GetAssets env w =
          (.ok (none,
              some ("get assets: SHA1 has validation failure: expexted \"" ++ v.AssetIndex.SHA1 ++
                "\" but got \"" ++ sha1Hex env assetData ++ "\"")),
            ⟨w.requests + 1, w.calls ++ [Call.httpDo v.AssetIndex.URL]⟩)) := by
  constructor
  · intro url id w resp₁ resp₂ manifestData versionData manifest vManifest
      hreq₁ hdo₁ hst₁ hbody₁ hdec hlook hreq₂ hdo₂ hst₂ hbody₂ hhash
    simp [GetVersion, hreq₁, hdo₁, hst₁, hbody₁, hdec, hlook, hreq₂, hdo₂, hst₂, hbody₂, hhash]
  · intro v w resp assetData hreq hdo hst hbody hhash
    simp [Version.GetAssets, hreq, hdo, hst, hbody, hhash]

/-- C1, at an input: the catalog of the examples with a payload `[1, 2, 4]` whose
digest `07` is not the expected `06`, and an asset index `[5, 6]` whose digest
`0b` is not the expected `0c`. -/
theorem hash_mismatch_is_fatal_witness :
    GetVersion (testEnv [1, 2, 4] [5, 6]) "catalog" "release" World.init =
        (.ok (Version.zero,
            some "get version: SHA1 has validation failure: expexted \"06\" but got \"07\""),
          ⟨2, [Call.httpDo "catalog", Call.jsonUnmarshal [7], Call.httpDo "L"]⟩) ∧
      testVersion.GetAssets (testEnv [1, 2, 4] [5, 6]) World.init =
        (.ok (none,
            some "get assets: SHA1 has validation failure: expexted \"0c\" but got \"0b\""),
          ⟨1, [Call.httpDo "A"]⟩) :=
  ⟨(hash_mismatch_is_fatal (testEnv [1, 2, 4] [5, 6])).1 "catalog" "release" World.init
      ⟨200, ([7], none)⟩ ⟨200, ([1, 2, 4], none)⟩ [7] [1, 2, 4] testManifest testSummary
      rfl rfl rfl rfl rfl rfl rfl rfl rfl rfl (by decide),
    (hash_mismatch_is_fatal (testEnv [1, 2, 4] [5, 6])).2 testVersion World.init
      ⟨200, ([5, 6], none)⟩ [5, 6] rfl rfl rfl rfl (by decide)⟩

/-! ## Resolution of the requested id -/

/-- C2, as stated, fails at the requested id `release`: the catalog
`channelNamedManifest` holds exactly one entry whose id is `release`, and the
lookup step called with `release` searches for `latest["release"] = "1.2"` and
ends in the not-found error. -/
theorem lookup_of_channel_named_entry_not_found :
    channelNamedManifest.Versions.filter (fun s => decide (s.ID = "release")) =
        [⟨⟨"06", "L", 3⟩, "release", "release", Time.zero⟩] ∧
      lookupVersion channelNamedManifest "release" =
        .error "get version: could not find specified version \"1.2\"" := by
  constructor
  · decide
  · rfl

/-- C2, amended: let `e` be the requested id `X` when `X` is neither `release`
nor `snapshot`, and `doc.latest[X]` (the empty string when the key is missing)
otherwise.  If the versions list holds exactly one entry with id `e`, the lookup
step of `GetVersion` called with `X` selects exactly that entry; if no entry has
id `e`, `GetVersion` called with `X` (the catalog fetched with status 200 and
decoded to `doc`) returns the zero `Version` and the not-found error naming
`e`, after the catalog request and its decoding only. -/
theorem lookup_selects_unique_entry (doc : RawVersionManifest) (X e : String)
    (he : e = if X = "release" ∨ X = "snapshot" then (doc.Latest.get? X).getD "" else X) :
    (∀ v : VersionManifest,
        doc.Versions.filter (fun s => decide (s.ID = e)) = [v] → lookupVersion doc X = .ok v) ∧
    ((∀ v ∈ doc.Versions, v.ID ≠ e) →
      ∀ (env : Env) (url : String) (w : World) (resp : Response) (data : Bytes),
        env.NewRequest url = none →
        env.Do w.requests url = .ok resp →
        resp.StatusCode = 200 →
        resp.Body = (data, none) →
        env.UnmarshalManifest data = (doc, none) →
        GetVersion env url X w =
          (.ok (Version.zero,
              some ("get version: could not find specified version \"" ++ e ++ "\"")),
            ⟨w.requests + 1, w.calls ++ [Call.httpDo url, Call.jsonUnmarshal data]⟩)) := by
  have hsub : substituteID doc X = e := by rw [he]; rfl
  constructor
  · intro v hv
    simp [lookupVersion, hsub, findVersion_of_filter_eq_singleton hv]
  · intro habs env url w resp data hreq hdo hst hbody hdec
    have hlook : lookupVersion doc X =
        .error ("get version: could not find specified version \"" ++ e ++ "\"") := by
      simp [lookupVersion, hsub, findVersion_of_absent habs]
    simp [GetVersion, hreq, hdo, hst, hbody, hdec, hlook]

/-- C2, amended, at inputs: in the catalog of the examples the id `1.2` selects
the summary, and the id `1.3`, which no entry has, gives the not-found error. -/
theorem lookup_selects_unique_entry_witness :
    lookupVersion testManifest "1.2" = .ok testSummary ∧
      GetVersion (testEnv [1, 2, 3] []) "catalog" "1.3" World.init =
        (.ok (Version.zero, some "get version: could not find specified version \"1.3\""),
          ⟨1, [Call.httpDo "catalog", Call.jsonUnmarshal [7]]⟩) :=
  ⟨(lookup_selects_unique_entry testManifest "1.2" "1.2" (by decide)).1 testSummary (by decide),
    (lookup_selects_unique_entry testManifest "1.3" "1.3" (by decide)).2 (by decide)
      (testEnv [1, 2, 3] []) "catalog" World.init ⟨200, ([7], none)⟩ [7] rfl rfl rfl rfl rfl⟩

/-- C3, as stated, fails when `latest["release"]` is itself the channel name
`snapshot`: in `chainedManifest` the lookup with `release` searches for the id
`snapshot` and selects the first entry, while the lookup with
`latest["release"] = "snapshot"` searches for `latest["snapshot"] = "1.3"` and
selects the second. -/
theorem lookup_release_differs_when_chained :
    chainedManifest.Latest.get? "release" = some "snapshot" ∧
      lookupVersion chainedManifest "release" =
        .ok ⟨⟨"06", "L", 3⟩, "snapshot", "release", Time.zero⟩ ∧
      lookupVersion chainedManifest "snapshot" =
        .ok ⟨⟨"07", "M", 3⟩, "1.3", "snapshot", Time.zero⟩ ∧
      lookupVersion chainedManifest "release" ≠ lookupVersion chainedManifest "snapshot" := by
  refine ⟨rfl, rfl, rfl, ?_⟩
  intro h
  have h' : lookupVersion chainedManifest "release" =
      .ok ⟨⟨"07", "M", 3⟩, "1.3", "snapshot", Time.zero⟩ := h
  have h'' : (⟨⟨"06", "L", 3⟩, "snapshot", "release", Time.zero⟩ : VersionManifest) =
      ⟨⟨"07", "M", 3⟩, "1.3", "snapshot", Time.zero⟩ := Except.ok.inj h'
  exact absurd h'' (by decide)

/-- C3, amended: for every catalog document whose latest map has the key
`release` with a value other than `snapshot`, the lookup step of `GetVersion`
with requested id `release` gives the same outcome as the lookup step with
requested id `doc.latest["release"]`. -/
theorem lookup_release_eq_lookup_latest (doc : RawVersionManifest) (v : String)
    (hkey : doc.Latest.get? "release" = some v) (hv : v ≠ "snapshot") :
    lookupVersion doc "release" = lookupVersion doc v := by
  by_cases hr : v = "release"
  · rw [hr]
  · simp [lookupVersion, substituteID, hkey, hr, hv]

/-- C3, amended, at an input: the catalog of the examples, whose
`latest["release"]` is `1.2`. -/
theorem lookup_release_eq_lookup_latest_witness :
    lookupVersion testManifest "release" = lookupVersion testManifest "1.2" :=
  lookup_release_eq_lookup_latest testManifest "1.2" rfl (by decide)

/-- C10: when the catalog is fetched with status 200 and decodes to a document
with `latest["release"] = v` and exactly one summary of id `v`, and the fetch of
that summary's location returns status 200 with bytes `b` whose lowercase-hex
SHA-1 is the summary's hash and which decode to `d`, then
`GetVersion(catalogURL, "release")` returns exactly `d` with a nil error. -/
theorem getVersion_release_end_to_end (env : Env) (catalogURL v : String) (w : World)
    (resp₁ resp₂ : Response) (catalogData b : Bytes) (catalog : RawVersionManifest)
    (summary : VersionManifest) (d : Version)
    (hreq₁ : env.NewRequest catalogURL = none)
    (hdo₁ : env.Do w.requests catalogURL = .ok resp₁)
    (hst₁ : resp₁.StatusCode = 200)
    (hbody₁ : resp₁.Body = (catalogData, none))
    (hdec₁ : env.UnmarshalManifest catalogData = (catalog, none))
    (hlatest : catalog.Latest.get? "release" = some v)
    (hone : catalog.Versions.filter (fun s => decide (s.ID = v)) = [summary])
    (hreq₂ : env.NewRequest summary.URL = none)
    (hdo₂ : env.Do (w.requests + 1) summary.URL = .ok resp₂)
    (hst₂ : resp₂.StatusCode = 200)
    (hbody₂ : resp₂.Body = (b, none))
    (hhash : sha1Hex env b = summary.SHA1)
    (hdec₂ : env.UnmarshalVersion b = (d, none)) :
    GetVersion env catalogURL "release" w =
      (.ok (d, none),
        ⟨w.requests + 2,
          w.calls ++ [Call.httpDo catalogURL, Call.jsonUnmarshal catalogData,
            Call.httpDo summary.URL, Call.jsonUnmarshal b]⟩) := by
  have hlook : lookupVersion catalog "release" = .ok summary := by
    simp [lookupVersion, substituteID, hlatest, findVersion_of_filter_eq_singleton hone]
  simp [GetVersion, hreq₁, hdo₁, hst₁, hbody₁, hdec₁, hlook, hreq₂, hdo₂, hst₂, hbody₂, hhash,
    hdec₂]

/-- C10, at the input of the claim: `latest.release = "1.2"`, one summary with id
`1.2`, location `L` and hash `06`, and a payload `[1, 2, 3]` of digest `06`. -/
theorem getVersion_release_end_to_end_witness :
    GetVersion (testEnv [1, 2, 3] []) "catalog" "release" World.init =
      (.ok (testVersion, none),
        ⟨2, [Call.httpDo "catalog", Call.jsonUnmarshal [7], Call.httpDo "L",
          Call.jsonUnmarshal [1, 2, 3]]⟩) :=
  getVersion_release_end_to_end (testEnv [1, 2, 3] []) "catalog" "1.2" World.init
    ⟨200, ([7], none)⟩ ⟨200, ([1, 2, 3], none)⟩ [7] [1, 2, 3] testManifest testSummary
    testVersion rfl rfl rfl rfl rfl rfl (by decide) rfl rfl rfl rfl (by decide) rfl

/-- C4: for every release descriptor and every payload downloaded with status
200 whose lowercase-hex SHA-1 equals `v.Downloads.Client.SHA1` but whose length
differs from `v.Downloads.Client.Size`, `GetClient` returns a nil client and the
size-mismatch error, a message that no hash-mismatch error has; and whenever
`GetClient` returns a client, the download had status 200, the client holds
exactly the downloaded bytes with its index unbuilt, the error is nil, and both
the hash and the length match. -/
theorem getClient_checks_hash_and_size (env : Env) (v : Version) (w : World) :
    (∀ (resp : Response) (clientData : Bytes),
        env.NewRequest v.Downloads.Client.URL = none →
        env.Do w.requests v.Downloads.Client.URL = .ok resp →
        resp.StatusCode = 200 →
        resp.Body = (clientData, none) →
        sha1Hex env clientData = v.Downloads.Client.SHA1 →
        (clientData.length : Int) ≠ v.Downloads.Client.Size →
        v.GetClient env w =
            (.ok (none,
                some ("get client: SHA1 matches but client has " ++
                  toString (clientData.length : Int) ++ "b of data but expected " ++
                  toString v.Downloads.Client.Size ++ "b")),
              ⟨w.requests + 1, w.calls ++ [Call.httpDo v.Downloads.Client.URL]⟩) ∧
          ∀ expected got : String,
            "get client: SHA1 matches but client has " ++ toString (clientData.length : Int) ++
                "b of data but expected " ++ toString v.Downloads.Client.Size ++ "b" ≠
              "get client: SHA1 has validation failure: expexted \"" ++ expected ++
                "\" but got \"" ++ got ++ "\"") ∧
    (∀ (c : Client) (err : GoError) (w' : World),
        v.GetClient env w = (.ok (some c, err), w') →
        ∃ resp : Response, env.Do w.requests v.Downloads.Client.URL = .ok resp ∧
          resp.StatusCode = 200 ∧ resp.Body = (c.rawData, none) ∧
          sha1Hex env c.rawData = v.Downloads.Client.SHA1 ∧
          (c.rawData.length : Int) = v.Downloads.Client.Size ∧ c.files = none ∧ err = none) := by
  constructor
  · intro resp clientData hreq hdo hst hbody hhash hlen
    refine ⟨?_, fun expected got => size_message_ne_hash_message expected got _ _⟩
    simp [Version.GetClient, hreq, hdo, hst, hbody, hhash, hlen]
  · intro c err w' h
    exact getClient_only_when env v w w' c err h

/-- C4, at inputs: the descriptor of the examples expects the hash `0f` and 4
bytes; the payload `[5, 10]` has that digest but 2 bytes, and the payload
`[1, 2, 4, 8]` has that digest and 4 bytes. -/
theorem getClient_checks_hash_and_size_witness :
    testVersion.GetClient (testEnv [] [5, 10]) World.init =
        (.ok (none, some "get client: SHA1 matches but client has 2b of data but expected 4b"),
          ⟨1, [Call.httpDo "J"]⟩) ∧
      ∃ resp : Response, (testEnv [] [1, 2, 4, 8]).Do 0 "J" = .ok resp ∧
        resp.StatusCode = 200 ∧ resp.Body = ([1, 2, 4, 8], none) ∧
        sha1Hex (testEnv [] [1, 2, 4, 8]) [1, 2, 4, 8] = "0f" ∧
        (([1, 2, 4, 8] : Bytes).length : Int) = 4 ∧ (none : Option (List ZipFile)) = none ∧
        (none : GoError) = none :=
  ⟨((getClient_checks_hash_and_size (testEnv [] [5, 10]) testVersion World.init).1
      ⟨200, ([5, 10], none)⟩ [5, 10] rfl rfl rfl rfl (by decide) (by decide)).1,
    (getClient_checks_hash_and_size (testEnv [] [1, 2, 4, 8]) testVersion World.init).2
      ⟨[1, 2, 4, 8], none⟩ none ⟨1, [Call.httpDo "J"]⟩ (by rfl)⟩

/-! ## The archive -/

/-- C6: for every container whose entries all open and read successfully and
every prefix `p`, `GetFiles(p)` returns a map whose keys are exactly the `s`
such that some entry has the path `p ++ s`, and each key `s` maps to the full
bytes of the last entry in container order whose path is `p ++ s`. -/
theorem getFiles_keys_and_bytes (env : Env) (c c' : Client) (p : String) (w w₁ : World)
    (hload : loadFiles env c w = (.ok c', w₁))
    (hok : ∀ f ∈ c'.files.getD [], ∃ data : Bytes, f.Open = (some ⟨(data, none)⟩, none)) :
    ∃ (m : GoMap Bytes) (w' : World), c.GetFiles env p w = (.ok m, w') ∧
      (∀ s : String, s ∈ m.keys ↔ ∃ f ∈ c'.files.getD [], f.Name = p ++ s) ∧
      ∀ (s : String) (f : ZipFile) (data : Bytes),
        ((c'.files.getD []).filter (fun g => decide (g.Name = p ++ s))).getLast? = some f →
        f.Open = (some ⟨(data, none)⟩, none) → m.get? s = some data := by
  have hopen : ∀ f ∈ c'.files.getD [], ∀ s : String, f.Name = p ++ s →
      ∃ rc, f.Open.1 = some rc := by
    intro f hf s _
    obtain ⟨data, hd⟩ := hok f hf
    exact ⟨⟨(data, none)⟩, by rw [hd]⟩
  obtain ⟨m, w', hrun, hkeys, hlast⟩ := GetFiles_returns env c c' p w w₁ hload hopen
  refine ⟨m, w', hrun, hkeys, fun s f data hf hd => ?_⟩
  rw [hlast s f hf, hd]
  rfl

/-- C6, at the input of the claim: the entries `a/b/c.json` and `a/d.json` (and
an entry outside `a/`) with the prefix `a/` give exactly the keys `b/c.json` and
`d.json`, each with the bytes of its entry. -/
theorem getFiles_keys_and_bytes_witness :
    (∃ (m : GoMap Bytes) (w' : World),
        Client.GetFiles (archiveEnv prefixEntries) ⟨[80, 75], none⟩ "a/" World.init =
          (.ok m, w') ∧
        (∀ s : String, s ∈ m.keys ↔ ∃ f ∈ prefixEntries, f.Name = "a/" ++ s) ∧
        ∀ (s : String) (f : ZipFile) (data : Bytes),
          (prefixEntries.filter (fun g => decide (g.Name = "a/" ++ s))).getLast? = some f →
          f.Open = (some ⟨(data, none)⟩, none) → m.get? s = some data) ∧
      Client.GetFiles (archiveEnv prefixEntries) ⟨[80, 75], none⟩ "a/" World.init =
        (.ok [("b/c.json", [1]), ("d.json", [2])],
          ⟨0, [Call.zipNewReader [80, 75], Call.zipOpen "a/b/c.json",
            Call.zipOpen "a/d.json"]⟩) :=
  ⟨getFiles_keys_and_bytes (archiveEnv prefixEntries) ⟨[80, 75], none⟩
      ⟨[80, 75], some prefixEntries⟩ "a/" World.init ⟨0, [Call.zipNewReader [80, 75]]⟩ rfl
      (by
        intro f hf
        simp only [Option.getD_some, prefixEntries, List.mem_cons, List.mem_nil_iff,
          or_false] at hf
        rcases hf with rfl | rfl | rfl <;> exact ⟨_, rfl⟩),
    rfl⟩

/-- C7: whenever `GetFiles("assets/minecraft/models/item/")` returns a map,
`GetItemModels` returns a map whose keys are exactly the keys of that map that
neither start with `template_` nor are `air`, and each such key maps to the
model decoded from its bytes. -/
theorem getItemModels_keys (env : Env) (c : Client) (w w₁ : World) (files : GoMap Bytes)
    (hfiles : c.GetFiles env "assets/minecraft/models/item/" w = (.ok files, w₁)) :
    ∃ (models : GoMap Model) (w' : World), c.GetItemModels env w = (.ok models, w') ∧
      (∀ k : String,
        k ∈ models.keys ↔ k ∈ files.keys ∧ HasPrefix k "template_" = false ∧ k ≠ "air") ∧
      ∀ (k : String) (b : Bytes), files.get? k = some b → HasPrefix k "template_" = false →
        k ≠ "air" → models.get? k = some (env.UnmarshalModel b).1 := by
  have hnd : files.keys.Nodup := by
    rcases hload : loadFiles env c w with ⟨_ | c', w₀⟩
    · simp [Client.GetFiles, hload] at hfiles
    · simp [Client.GetFiles, hload] at hfiles
      exact GetFiles_loop_nodup _ _ [] files w₀ w₁ hfiles (by simp [GoMap.keys])
  obtain ⟨m, w', hrun, hm⟩ := GetItemModels_loop_run env files [] w₁ hnd
  refine ⟨m, w', ?_, fun k => ?_, fun k b hb ht ha => ?_⟩
  · simp [Client.GetItemModels, hfiles, hrun]
  · rw [GoMap.mem_keys_iff, GoMap.mem_keys_iff, hm k]
    by_cases hskip : HasPrefix k "template_" = true ∨ k = "air"
    · rw [if_pos hskip]
      rcases hskip with h | h <;> simp [GoMap.get?, h]
    · rw [if_neg hskip]
      simp only [not_or, Bool.not_eq_true] at hskip
      rcases hg : GoMap.get? files k with _ | b <;> simp [GoMap.get?, hskip.1, hskip.2]
  · have hskip : ¬ (HasPrefix k "template_" = true ∨ k = "air") := by simp [ht, ha]
    rw [hm k, if_neg hskip, hb]

/-- C7, at the input of the claim: with the entries `template_foo`, `air` and
`stick` under the item-model prefix, the result holds `stick` only, decoded from
the document `{}` to a model with no parent and no overrides. -/
theorem getItemModels_keys_witness :
    (∃ (models : GoMap Model) (w' : World),
        Client.GetItemModels (archiveEnv itemEntries) ⟨[80, 75], none⟩ World.init =
          (.ok models, w') ∧
        (∀ k : String, k ∈ models.keys ↔
          k ∈ GoMap.keys [("template_foo", ([123, 125] : Bytes)), ("air", [4]),
              ("stick", [123, 125])] ∧
            HasPrefix k "template_" = false ∧ k ≠ "air") ∧
        ∀ (k : String) (b : Bytes),
          GoMap.get? [("template_foo", ([123, 125] : Bytes)), ("air", [4]),
            ("stick", [123, 125])] k = some b →
          HasPrefix k "template_" = false → k ≠ "air" →
          models.get? k = some ((archiveEnv itemEntries).UnmarshalModel b).1) ∧
      Client.GetItemModels (archiveEnv itemEntries) ⟨[80, 75], none⟩ World.init =
        (.ok [("stick", Model.zero)],
          ⟨0, [Call.zipNewReader [80, 75],
            Call.zipOpen "assets/minecraft/models/item/template_foo",
            Call.zipOpen "assets/minecraft/models/item/air",
            Call.zipOpen "assets/minecraft/models/item/stick",
            Call.jsonUnmarshal [123, 125]]⟩) ∧
      Model.zero.Parent = "" ∧ Model.zero.Overrides = [] :=
  ⟨getItemModels_keys (archiveEnv itemEntries) ⟨[80, 75], none⟩ World.init
      ⟨0, [Call.zipNewReader [80, 75], Call.zipOpen "assets/minecraft/models/item/template_foo",
        Call.zipOpen "assets/minecraft/models/item/air",
        Call.zipOpen "assets/minecraft/models/item/stick"]⟩
      [("template_foo", [123, 125]), ("air", [4]), ("stick", [123, 125])] rfl,
    rfl, rfl, rfl⟩

/-- C8, as stated, fails on an entry whose read fails: with the entries
`a/d.json` and `a/b/c.json`, the second failing after one byte was read,
`GetFiles("a/")` returns a map that holds the key `b/c.json` of the failed
entry, mapped to the byte that was read. -/
theorem getFiles_keeps_entry_with_failed_read :
    (truncatedEntry "a/b/c.json" [1]).Open.1.map (fun rc => rc.ReadAll.2) =
        some (some "unexpected EOF") ∧
      Client.GetFiles (archiveEnv truncatedEntries) ⟨[80, 75], none⟩ "a/" World.init =
        (.ok [("d.json", [2]), ("b/c.json", [1])],
          ⟨0, [Call.zipNewReader [80, 75], Call.zipOpen "a/d.json",
            Call.zipOpen "a/b/c.json"]⟩) ∧
      GoMap.get? [("d.json", ([2] : Bytes)), ("b/c.json", [1])] "b/c.json" = some [1] := by
  refine ⟨rfl, rfl, rfl⟩

/-- C8, amended: for every archive and prefix `p` whose matching entries all
open, `GetFiles(p)` returns normally and drops no entry whose read fails: its
keys are exactly the `s` such that some entry has the path `p ++ s`, and each
key `s` maps to the bytes that `io.ReadAll` returned, with or without an error,
for the last entry in container order whose path is `p ++ s`. -/
theorem getFiles_keeps_failed_reads (env : Env) (c c' : Client) (p : String) (w w₁ : World)
    (hload : loadFiles env c w = (.ok c', w₁))
    (hopen : ∀ f ∈ c'.files.getD [], ∀ s : String, f.Name = p ++ s →
      ∃ rc, f.Open.1 = some rc) :
    ∃ (m : GoMap Bytes) (w' : World), c.GetFiles env p w = (.ok m, w') ∧
      (∀ s : String, s ∈ m.keys ↔ ∃ f ∈ c'.files.getD [], f.Name = p ++ s) ∧
      ∀ (s : String) (f : ZipFile) (rc : ReadCloser),
        ((c'.files.getD []).filter (fun g => decide (g.Name = p ++ s))).getLast? = some f →
        f.Open.1 = some rc → m.get? s = some rc.ReadAll.1 := by
  obtain ⟨m, w', hrun, hkeys, hlast⟩ := GetFiles_returns env c c' p w w₁ hload hopen
  refine ⟨m, w', hrun, hkeys, fun s f rc hf hrc => ?_⟩
  rw [hlast s f hf, hrc]
  rfl

/-- C8, amended, at an input: the entries `a/d.json` and `a/b/c.json`, the second
failing after one byte was read. -/
theorem getFiles_keeps_failed_reads_witness :
    ∃ (m : GoMap Bytes) (w' : World),
      Client.GetFiles (archiveEnv truncatedEntries) ⟨[80, 75], none⟩ "a/" World.init =
        (.ok m, w') ∧
      (∀ s : String, s ∈ m.keys ↔ ∃ f ∈ truncatedEntries, f.Name = "a/" ++ s) ∧
      ∀ (s : String) (f : ZipFile) (rc : ReadCloser),
        (truncatedEntries.filter (fun g => decide (g.Name = "a/" ++ s))).getLast? = some f →
        f.Open.1 = some rc → m.get? s = some rc.ReadAll.1 :=
  getFiles_keeps_failed_reads (archiveEnv truncatedEntries) ⟨[80, 75], none⟩
    ⟨[80, 75], some truncatedEntries⟩ "a/" World.init ⟨0, [Call.zipNewReader [80, 75]]⟩ rfl
    (by
      intro f hf s _
      simp only [Option.getD_some, truncatedEntries, List.mem_cons, List.mem_nil_iff,
        or_false] at hf
      rcases hf with rfl | rfl <;> exact ⟨_, rfl⟩)

/-- C9, as stated, fails on an entry that does not open: the archive holds an
entry with the exact path `version.json` whose `Open` fails, and `Versions`
returns neither nil nor a `ClientVersions`: `io.ReadAll` is called on the nil
reader and the call panics. -/
theorem versions_panics_on_unopenable_entry :
    (∃ f ∈ [unopenableEntry "version.json"], f.Name = "version.json") ∧
      Client.Versions (archiveEnv [unopenableEntry "version.json"]) ⟨[80, 75], none⟩
          World.init =
        (.error Panic.nilDereference,
          ⟨0, [Call.zipNewReader [80, 75], Call.zipOpen "version.json"]⟩) :=
  ⟨⟨unopenableEntry "version.json", List.mem_singleton.2 rfl, rfl⟩, rfl⟩

/-- C9, amended: for every archive, `Versions` returns nil if and only if no
entry has the exact path `version.json`; otherwise, when the first entry in
container order whose path is exactly `version.json` opens, it returns a
non-nil `ClientVersions` decoded from the bytes read from that entry. -/
theorem versions_nil_iff_no_version_json (env : Env) (c c' : Client) (w w₁ : World)
    (hload : loadFiles env c w = (.ok c', w₁)) :
    ((c.Versions env w).1 = .ok none ↔ ∀ f ∈ c'.files.getD [], f.Name ≠ "version.json") ∧
    ∀ (f : ZipFile) (rc : ReadCloser),
      (c'.files.getD []).find? (fun g => decide (g.Name = "version.json")) = some f →
      f.Open.1 = some rc →
      c.Versions env w =
        (.ok (some (env.UnmarshalClientVersions rc.ReadAll.1).1),
          ⟨w₁.requests,
            w₁.calls ++ [Call.zipOpen "version.json", Call.jsonUnmarshal rc.ReadAll.1]⟩) := by
  have hrun : c.Versions env w = Versions.loop env (c'.files.getD []) w₁ := by
    simp [Client.Versions, hload]
  rw [hrun, Versions_loop_run]
  constructor
  · rcases hfind : (c'.files.getD []).find? (fun g => decide (g.Name = "version.json"))
      with _ | f
    · have hnone := List.find?_eq_none.1 hfind
      simp only [decide_eq_true_eq] at hnone
      simp only [hfind]
      exact ⟨fun _ => hnone, fun _ => trivial⟩
    · have hmem := List.mem_of_find?_eq_some hfind
      have hname : f.Name = "version.json" := by simpa using List.find?_some hfind
      simp only [hfind]
      constructor
      · intro h
        rcases hop : f.Open.1 with _ | rc <;> simp [hop] at h
      · intro h
        exact absurd hname (h f hmem)
  · intro f rc hfind hrc
    simp [hfind, hrc]

/-- C9, amended, at an input: the first entry with the exact path `version.json`
comes after an entry `data/version.json` and before a second `version.json`. -/
theorem versions_nil_iff_no_version_json_witness :
    ((Client.Versions (archiveEnv versionEntries) ⟨[80, 75], none⟩ World.init).1 = .ok none ↔
        ∀ f ∈ versionEntries, f.Name ≠ "version.json") ∧
      Client.Versions (archiveEnv versionEntries) ⟨[80, 75], none⟩ World.init =
        (.ok (some testClientVersions),
          ⟨0, [Call.zipNewReader [80, 75], Call.zipOpen "version.json",
            Call.jsonUnmarshal [9]]⟩) :=
  ⟨(versions_nil_iff_no_version_json (archiveEnv versionEntries) ⟨[80, 75], none⟩
      ⟨[80, 75], some versionEntries⟩ World.init ⟨0, [Call.zipNewReader [80, 75]]⟩ rfl).1,
    (versions_nil_iff_no_version_json (archiveEnv versionEntries) ⟨[80, 75], none⟩
      ⟨[80, 75], some versionEntries⟩ World.init ⟨0, [Call.zipNewReader [80, 75]]⟩ rfl).2
      (goodEntry "version.json" [9]) ⟨([9], none)⟩ rfl rfl⟩

/-- C5, on the code: two calls of `Versions`, and two calls of `GetFiles`, on
the same client with an unbuilt index each parse the raw data: over the two
calls `zip.NewReader` is invoked twice, not once.  The assignment
`c.files = zipReader.File` is made to the value receiver's copy. -/
theorem index_parsed_again_on_second_call :
    twice (Client.Versions (archiveEnv versionEntries) ⟨[80, 75], none⟩) World.init =
        (.ok (some testClientVersions, some testClientVersions),
          ⟨0, [Call.zipNewReader [80, 75], Call.zipOpen "version.json", Call.jsonUnmarshal [9],
            Call.zipNewReader [80, 75], Call.zipOpen "version.json",
            Call.jsonUnmarshal [9]]⟩) ∧
      twice (Client.GetFiles (archiveEnv prefixEntries) ⟨[80, 75], none⟩ "a/") World.init =
        (.ok ([("b/c.json", [1]), ("d.json", [2])], [("b/c.json", [1]), ("d.json", [2])]),
          ⟨0, [Call.zipNewReader [80, 75], Call.zipOpen "a/b/c.json", Call.zipOpen "a/d.json",
            Call.zipNewReader [80, 75], Call.zipOpen "a/b/c.json",
            Call.zipOpen "a/d.json"]⟩) :=
  ⟨rfl, rfl⟩

end InvisibleItems
